import Mathlib

/-!
Verification of the watercolor glazing and palette engine of the
haslun-me repository.

The engine itself ships as `projects/shared/watercolor-engine/watercolor-engine.js`
together with its catalog `pigments.json`; those two files are not part of the
source tree available here — only the engine's documentation
(`watercolor-engine/README.md`, `AI-README.md`) and its callers
(`atmosphere.js`) are.  The definitions below therefore model the engine from
the specification's own words, as noted on each definition, while the
`Atmosphere` model at the end of the file is a direct shallow embedding of the
`atmosphere.js` source that is present.

Colors are integer RGB triples.  Fractional arithmetic is carried out exactly:
a quantity `n / d` is kept as the integer pair and rounded with
`roundHalf n d = ⌊n / d + 1 / 2⌋`, the behavior of JavaScript's `Math.round`;
the bridge lemmas `roundHalf_eq` and `lerpChan_eq` identify these integer
computations with `round` on `ℚ`.  Hex strings are lists of characters.
-/

namespace Watercolor

/-- An sRGB color with integer channels. -/
structure Color where
  r : ℤ
  g : ℤ
  b : ℤ
deriving DecidableEq

/-- Clamp an integer channel into `[0, 255]`. -/
def clamp255 (x : ℤ) : ℤ := max 0 (min 255 x)

/-- Uppercase hexadecimal digit for a value in `[0, 15]`, computed from the
character codes (48 is the code of the zero digit, 55 + 10 that of the first
letter digit). -/
def hexDigitChar (n : ℕ) : Char :=
  if n < 10 then Char.ofNat (48 + n)
  else if n < 16 then Char.ofNat (55 + n)
  else Char.ofNat 48

/-- Numeric value of a hexadecimal digit character (either letter case),
`none` for any other character, computed from the character code. -/
def hexCharVal (c : Char) : Option ℕ :=
  let v := c.toNat
  if 48 ≤ v ∧ v ≤ 57 then some (v - 48)
  else if 65 ≤ v ∧ v ≤ 70 then some (v - 55)
  else if 97 ≤ v ∧ v ≤ 102 then some (v - 87)
  else none

/-- Two-digit uppercase hexadecimal encoding of a byte value. -/
def encByte (n : ℕ) : List Char := [hexDigitChar (n / 16), hexDigitChar (n % 16)]

/-- Modelled from the spec: `rgbToHex(r,g,b)` of the missing
`watercolor-engine.js` — each component is clamped into `[0,255]` (never
wrapped) and encoded as two uppercase hex digits after a leading `#`. -/
def rgbToHex (r g b : ℤ) : List Char :=
  '#' :: (encByte (clamp255 r).toNat ++ encByte (clamp255 g).toNat ++ encByte (clamp255 b).toNat)

/-- Modelled from the spec: `hexToRgb(hex)` of the missing
`watercolor-engine.js` — parses a `#RRGGBB` string into its integer channels,
failing on any malformed input. -/
def hexToRgb (s : List Char) : Option Color :=
  match s with
  | ['#', c1, c2, c3, c4, c5, c6] =>
    match hexCharVal c1, hexCharVal c2, hexCharVal c3,
          hexCharVal c4, hexCharVal c5, hexCharVal c6 with
    | some h1, some l1, some h2, some l2, some h3, some l3 =>
      some ⟨(h1 * 16 + l1 : ℕ), (h2 * 16 + l2 : ℕ), (h3 * 16 + l3 : ℕ)⟩
    | _, _, _, _, _, _ => none
  | _ => none

/-- Round the exact fraction `n / d` (for `d > 0`) to the nearest integer,
halves rounding up — the behavior of JavaScript's `Math.round`. -/
def roundHalf (n : ℤ) (d : ℕ) : ℤ := (2 * n + d) / (2 * (d : ℤ))

/-- Clamp an interpolation parameter into `[0, 1]`. -/
def clamp01 (t : ℚ) : ℚ := max 0 (min 1 t)

/-- One channel of the linear blend: the exact value `a + (b - a) * t` (with
`t` clamped into `[0,1]`) rounded to the nearest integer. -/
def lerpChan (a b : ℤ) (t : ℚ) : ℤ :=
  roundHalf (a * (clamp01 t).den + (b - a) * (clamp01 t).num) (clamp01 t).den

/-- Modelled from the spec: `lerp(colorA, colorB, t)` of the missing
`watercolor-engine.js` — per-channel linear interpolation in RGB space, the
parameter clamped into `[0,1]`, each channel rounded to the nearest integer. -/
def lerp (c d : Color) (t : ℚ) : Color :=
  ⟨lerpChan c.r d.r t, lerpChan c.g d.g t, lerpChan c.b d.b t⟩

theorem roundHalf_eq (n : ℤ) (d : ℕ) (hd : 0 < d) :
    roundHalf n d = round ((n : ℚ) / (d : ℚ)) := by
  have hd0 : ((d : ℚ)) ≠ 0 := by positivity
  rw [round_eq]
  have h : (n : ℚ) / (d : ℚ) + 1 / 2 = ((2 * n + d : ℤ) : ℚ) / ((2 * d : ℕ) : ℚ) := by
    push_cast
    field_simp
    ring
  rw [h, Rat.floor_intCast_div_natCast]
  simp [roundHalf]

theorem lerpChan_eq (a b : ℤ) (t : ℚ) :
    lerpChan a b t = round ((a : ℚ) + ((b : ℚ) - (a : ℚ)) * clamp01 t) := by
  have hd : 0 < (clamp01 t).den := (clamp01 t).pos
  have hden : ((clamp01 t).den : ℚ) ≠ 0 := by positivity
  have key : ((a * (clamp01 t).den + (b - a) * (clamp01 t).num : ℤ) : ℚ) / ((clamp01 t).den : ℚ)
      = (a : ℚ) + ((b : ℚ) - (a : ℚ)) * clamp01 t := by
    conv_rhs => rw [← Rat.num_div_den (clamp01 t)]
    push_cast
    field_simp
  rw [lerpChan, roundHalf_eq _ _ hd, key]

example : clamp255 300 = 255 := by decide
example : rgbToHex 245 211 40 = ['#', 'F', '5', 'D', '3', '2', '8'] := by decide
example : hexToRgb ['#', 'F', '5', 'D', '3', '2', '8'] = some ⟨245, 211, 40⟩ := by decide
example : lerpChan 252 245 (mkRat 45 100) = 249 := by decide

/-- A pigment record, after §3 of the spec.  The source represented the
transparency level as a free-form string (spec §9), so it is a `String` here
and the opacity mapping below is partial. -/
structure Pigment where
  id : String
  name : String
  nameEn : String
  hex : Color
  transparency : String
  family : String
  pigmentCodes : List String
deriving DecidableEq

/-- The paper-white substrate `#FCFAF5` = (252, 250, 245). -/
def paperWhite : Color := ⟨252, 250, 245⟩

/-- Modelled from the spec: the transparency-to-opacity mapping of the missing
`watercolor-engine.js` — transparent 0.45, semi-transparent 0.55, semi-opaque
0.70, opaque 0.85, and no defined opacity for any other string. -/
def opacityOf (t : String) : Option ℚ :=
  if t = "transparent" then some (mkRat 45 100)
  else if t = "semi-transparent" then some (mkRat 55 100)
  else if t = "semi-opaque" then some (mkRat 70 100)
  else if t = "opaque" then some (mkRat 85 100)
  else none

/-- Modelled from the spec: `glaze(base, pigment)` of the missing
`watercolor-engine.js` — `lerp(base, pigment.hex, opacity(pigment.transparency))`,
failing fast when the transparency level has no defined opacity (§7). -/
def glaze (base : Color) (p : Pigment) : Option Color :=
  (opacityOf p.transparency).map (lerp base p.hex)

/-- Modelled from the spec: `glazeMultiple(pigments, base)` of the missing
`watercolor-engine.js` — folds `glaze` left-to-right over the ordered pigment
list (first element bottom-most); callers that give no base use `paperWhite`. -/
def glazeMultiple (ps : List Pigment) (base : Color) : Option Color :=
  ps.foldlM glaze base

/-- Modelled from the spec: `compareLayerOrders(a, b)` of the missing
`watercolor-engine.js` — the pair of both stacking orders over paper white. -/
def compareLayerOrders (a b : Pigment) : Option Color × Option Color :=
  (glazeMultiple [a, b] paperWhite, glazeMultiple [b, a] paperWhite)

/-- Modelled from the spec: `getDilutionGradient(pigment, steps)` of the
missing `watercolor-engine.js` — `steps` colors evenly spaced in RGB space from
paper white (step 0) to `glaze(paperWhite, pigment)` (final step); an error for
`steps < 1`, a one-element gradient at the fully glazed color for `steps = 1`. -/
def getDilutionGradient (p : Pigment) (steps : ℤ) : Option (List Color) :=
  if steps < 1 then none
  else (glaze paperWhite p).map (fun full =>
    if steps = 1 then [full]
    else (List.range steps.toNat).map (fun i => lerp paperWhite full (mkRat i (steps - 1).toNat)))

/-- Squared channel-wise Euclidean distance between two colors. -/
def dist2 (c d : Color) : ℤ := (c.r - d.r) ^ 2 + (c.g - d.g) ^ 2 + (c.b - d.b) ^ 2

/-- The colors of `cs` get strictly closer to `full` along the list. -/
def strictlyCloser (full : Color) (cs : List Color) : Prop :=
  cs.Chain' (fun x y => dist2 y full < dist2 x full)

/-- ASCII-lowercased character list of a name, for case-insensitive lookup. -/
def lowerName (s : String) : List Char := s.toList.map Char.toLower

/-- Modelled from the spec: `findPigment(nameOrId)` of the missing
`watercolor-engine.js` — case-insensitive exact match against `id`, then
`name`, then `nameEn`, in that priority order; first match wins; `none` when
nothing matches. -/
def findPigment (catalog : List Pigment) (q : String) : Option Pigment :=
  (catalog.find? (fun p => lowerName p.id == lowerName q)).orElse (fun _ =>
    (catalog.find? (fun p => lowerName p.name == lowerName q)).orElse (fun _ =>
      catalog.find? (fun p => lowerName p.nameEn == lowerName q)))

/-- Modelled from the spec: the catalog entry for "Indian Yellow", the one
pigment whose color data the spec pins down — hex `#F5D328` = (245, 211, 40),
transparency `transparent` (spec §8; engine README).  `pigments.json` is not in
the tree, so the Schmincke id and German name are representative values. -/
def indianYellow : Pigment :=
  ⟨"224", "Indischgelb", "Indian Yellow", ⟨245, 211, 40⟩, "transparent", "yellow", ["PY110"]⟩

/-- Modelled from the spec: a catalog entry for "Ultramarine", which the engine
README lists in the blue family; `pigments.json` is not in the tree, so its
hex, transparency and codes here are representative values. -/
def ultramarine : Pigment :=
  ⟨"495", "Ultramarin", "Ultramarine", ⟨26, 48, 80⟩, "semi-transparent", "blue", ["PB29"]⟩

/-- Modelled from the spec: a catalog entry for "Carmine", which the engine
README lists in the red family; `pigments.json` is not in the tree, so its
hex, transparency and codes here are representative values. -/
def carmine : Pigment :=
  ⟨"349", "Karmin", "Carmine", ⟨180, 30, 60⟩, "semi-transparent", "red", ["PR176"]⟩

/-- Modelled from the spec: the ordered, immutable pigment catalog (§3).  The
real catalog `pigments.json` holds 24 entries and is not in the tree; this
model keeps the entries named above, unique by id, in a fixed order. -/
def modelCatalog : List Pigment := [indianYellow, ultramarine, carmine]

/-- Claim C1: for every base color and pigment with a recognized transparency level,
`glaze(base, pigment)` is the per-channel linear blend
`lerp(base, pigment.hex, opacity(pigment.transparency))`, with opacities
transparent = 0.45, semi-transparent = 0.55, semi-opaque = 0.70,
opaque = 0.85; concretely, glazing Indian Yellow `#F5D328` (transparent) over
paper white `#FCFAF5` gives exactly (249, 232, 153) = `#F9E899`. -/
theorem glaze_is_lerp_opacity :
    (∀ (base : Color) (p : Pigment) (o : ℚ),
      opacityOf p.transparency = some o → glaze base p = some (lerp base p.hex o)) ∧
    opacityOf "transparent" = some (45 / 100) ∧
    opacityOf "semi-transparent" = some (55 / 100) ∧
    opacityOf "semi-opaque" = some (70 / 100) ∧
    opacityOf "opaque" = some (85 / 100) ∧
    glaze paperWhite indianYellow = some ⟨249, 232, 153⟩ ∧
    rgbToHex 249 232 153 = ['#', 'F', '9', 'E', '8', '9', '9'] := by
  refine ⟨?_, ?_, ?_, ?_, ?_, by decide, by decide⟩
  · intro base p o h
    simp [glaze, h]
  all_goals simp [opacityOf, Rat.mkRat_eq_div]

/-- Witness for C1 at base = paper white, pigment = Indian Yellow. -/
theorem glaze_is_lerp_opacity_witness :
    glaze paperWhite indianYellow = some (lerp paperWhite indianYellow.hex (mkRat 45 100)) :=
  glaze_is_lerp_opacity.1 paperWhite indianYellow (mkRat 45 100) (by decide)

/-- Claim C2: `glazeMultiple` is the left-to-right fold of `glaze`: the empty list
returns the base unchanged (identity case, not an error), a leading pigment is
glazed over the base first (bottom-most layer), and the output after the
first `i` layers is the base for layer `i + 1`. -/
theorem glazeMultiple_cons (p : Pigment) (ps : List Pigment) (base : Color) :
    glazeMultiple (p :: ps) base = (glaze base p).bind (fun c => glazeMultiple ps c) := by
  cases h : glaze base p <;> simp [glazeMultiple, List.foldlM, h]

theorem glazeMultiple_is_fold :
    (∀ base : Color, glazeMultiple [] base = some base) ∧
    (∀ (p : Pigment) (ps : List Pigment) (base : Color),
      glazeMultiple (p :: ps) base = (glaze base p).bind (fun c => glazeMultiple ps c)) ∧
    (∀ (ps : List Pigment) (p : Pigment) (base : Color),
      glazeMultiple (ps ++ [p]) base = (glazeMultiple ps base).bind (fun c => glaze c p)) := by
  refine ⟨fun base => rfl, glazeMultiple_cons, fun ps => ?_⟩
  induction ps with
  | nil =>
    intro p base
    simp [glazeMultiple_cons, glazeMultiple]
  | cons q qs ih =>
    intro p base
    rw [List.cons_append, glazeMultiple_cons, glazeMultiple_cons]
    cases h : glaze base q <;> simp [ih]

/-- Claim C9: glazing a pigment whose transparency is not one of the four recognized
levels fails (returns the error value), never silently defaulting. -/
theorem glaze_unknown_transparency_fails :
    ∀ (base : Color) (p : Pigment),
      p.transparency ≠ "transparent" → p.transparency ≠ "semi-transparent" →
      p.transparency ≠ "semi-opaque" → p.transparency ≠ "opaque" →
      glaze base p = none := by
  intro base p h1 h2 h3 h4
  simp [glaze, opacityOf, h1, h2, h3, h4]

/-- Witness for C9 at a pigment with the unrecognized level "granulating". -/
theorem glaze_unknown_transparency_fails_witness :
    glaze paperWhite ⟨"0", "X", "X", ⟨0, 0, 0⟩, "granulating", "none", []⟩ = none :=
  glaze_unknown_transparency_fails paperWhite _ (by decide) (by decide) (by decide) (by decide)

/-- Claim C8: `getDilutionGradient` fails fast for `steps < 1`, and for `steps = 1`
returns the single fully glazed color. -/
theorem getDilutionGradient_steps :
    (∀ (p : Pigment) (steps : ℤ), steps < 1 → getDilutionGradient p steps = none) ∧
    (∀ (p : Pigment) (full : Color),
      glaze paperWhite p = some full → getDilutionGradient p 1 = some [full]) := by
  constructor
  · intro p steps h
    simp [getDilutionGradient, h]
  · intro p full h
    simp [getDilutionGradient, h]

/-- Witness for C8 at steps = 0 and at Indian Yellow with steps = 1. -/
theorem getDilutionGradient_steps_witness :
    getDilutionGradient indianYellow 0 = none ∧
    getDilutionGradient indianYellow 1 = some [⟨249, 232, 153⟩] :=
  ⟨getDilutionGradient_steps.1 indianYellow 0 (by decide),
   getDilutionGradient_steps.2 indianYellow ⟨249, 232, 153⟩ (by decide)⟩

/-- Claim C4: `compareLayerOrders` returns exactly the pair of both stacking orders,
and layering is order-sensitive: the catalog holds two pigments with distinct
hex values and distinct transparency levels whose two stacking orders give
different colors. -/
theorem compareLayerOrders_noncommutative :
    (∀ a b : Pigment,
      compareLayerOrders a b = (glazeMultiple [a, b] paperWhite, glazeMultiple [b, a] paperWhite)) ∧
    ∃ A ∈ modelCatalog, ∃ B ∈ modelCatalog,
      A.hex ≠ B.hex ∧ A.transparency ≠ B.transparency ∧
      glazeMultiple [A, B] paperWhite ≠ glazeMultiple [B, A] paperWhite :=
  ⟨fun _ _ => rfl,
   indianYellow, by decide, ultramarine, by decide, by decide, by decide, by decide⟩

theorem clamp255_nonneg (x : ℤ) : 0 ≤ clamp255 x := le_max_left 0 _

theorem clamp255_le_255 (x : ℤ) : clamp255 x ≤ 255 :=
  max_le (by norm_num) (min_le_left _ _)

theorem clamp255_eq_self {x : ℤ} (h0 : 0 ≤ x) (h1 : x ≤ 255) : clamp255 x = x := by
  unfold clamp255
  rw [min_eq_right h1, max_eq_right h0]

theorem hexToRgb_digits (h1 l1 h2 l2 h3 l3 : ℕ)
    (b1 : h1 < 16) (b2 : l1 < 16) (b3 : h2 < 16) (b4 : l2 < 16) (b5 : h3 < 16) (b6 : l3 < 16) :
    hexToRgb ['#', hexDigitChar h1, hexDigitChar l1, hexDigitChar h2, hexDigitChar l2,
              hexDigitChar h3, hexDigitChar l3]
      = some ⟨(h1 * 16 + l1 : ℕ), (h2 * 16 + l2 : ℕ), (h3 * 16 + l3 : ℕ)⟩ := by
  have hv : ∀ m : Fin 16, hexCharVal (hexDigitChar m.val) = some m.val := by decide
  simp [hexToRgb, hv ⟨h1, b1⟩, hv ⟨l1, b2⟩, hv ⟨h2, b3⟩, hv ⟨l2, b4⟩, hv ⟨h3, b5⟩, hv ⟨l3, b6⟩]

theorem hexToRgb_rgbToHex_clamp (r g b : ℤ) :
    hexToRgb (rgbToHex r g b) = some ⟨clamp255 r, clamp255 g, clamp255 b⟩ := by
  have key : ∀ x : ℤ, ((clamp255 x).toNat / 16) * 16 + (clamp255 x).toNat % 16
      = (clamp255 x).toNat := by
    intro x
    rw [Nat.mul_comm]
    exact Nat.div_add_mod _ 16
  have hlt : ∀ x : ℤ, (clamp255 x).toNat < 256 := by
    intro x
    have := clamp255_le_255 x
    omega
  have hdiv : ∀ x : ℤ, (clamp255 x).toNat / 16 < 16 := by
    intro x
    have := hlt x
    omega
  have hmod : ∀ x : ℤ, (clamp255 x).toNat % 16 < 16 := fun x => Nat.mod_lt _ (by norm_num)
  have hcast : ∀ x : ℤ, (((clamp255 x).toNat : ℤ)) = clamp255 x :=
    fun x => Int.toNat_of_nonneg (clamp255_nonneg x)
  rw [rgbToHex]
  simp only [encByte, List.cons_append, List.nil_append]
  rw [hexToRgb_digits _ _ _ _ _ _ (hdiv r) (hmod r) (hdiv g) (hmod g) (hdiv b) (hmod b)]
  rw [key r, key g, key b]
  rw [hcast r, hcast g, hcast b]

/-- Claim C3: `hexToRgb` inverts `rgbToHex` exactly on every integer triple in
`[0,255]³`, and out-of-range components are clamped into `[0,255]` before
encoding, never wrapped. -/
theorem hexToRgb_rgbToHex_roundtrip :
    (∀ r g b : ℤ, 0 ≤ r → r ≤ 255 → 0 ≤ g → g ≤ 255 → 0 ≤ b → b ≤ 255 →
      hexToRgb (rgbToHex r g b) = some ⟨r, g, b⟩) ∧
    (∀ r g b : ℤ, hexToRgb (rgbToHex r g b) = some ⟨clamp255 r, clamp255 g, clamp255 b⟩) ∧
    (∀ x : ℤ, 0 ≤ clamp255 x ∧ clamp255 x ≤ 255) ∧
    (∀ x : ℤ, 0 ≤ x → x ≤ 255 → clamp255 x = x) := by
  refine ⟨?_, hexToRgb_rgbToHex_clamp,
    fun x => ⟨clamp255_nonneg x, clamp255_le_255 x⟩, fun x h0 h1 => clamp255_eq_self h0 h1⟩
  intro r g b hr0 hr1 hg0 hg1 hb0 hb1
  rw [hexToRgb_rgbToHex_clamp, clamp255_eq_self hr0 hr1, clamp255_eq_self hg0 hg1,
    clamp255_eq_self hb0 hb1]

/-- Witness for C3 at (245, 211, 40) and the clamped encoding of 300. -/
theorem hexToRgb_rgbToHex_roundtrip_witness :
    hexToRgb (rgbToHex 245 211 40) = some ⟨245, 211, 40⟩ ∧
    hexToRgb (rgbToHex 300 (-5) 40) = some ⟨clamp255 300, clamp255 (-5), clamp255 40⟩ :=
  ⟨hexToRgb_rgbToHex_roundtrip.1 245 211 40 (by decide) (by decide) (by decide) (by decide)
      (by decide) (by decide),
   hexToRgb_rgbToHex_roundtrip.2.1 300 (-5) 40⟩

/-- Claim C6: `findPigment` matches case-insensitively and exactly against `id`,
then `name`, then `nameEn`, in that priority order, returning the first match
in catalog order and the not-found sentinel when no field matches; the two
spellings of "Indian Yellow" resolve to the same entry. -/
theorem findPigment_lookup :
    (∀ (catalog : List Pigment) (q1 q2 : String), lowerName q1 = lowerName q2 →
      findPigment catalog q1 = findPigment catalog q2) ∧
    (∀ (catalog : List Pigment) (q : String) (p : Pigment), findPigment catalog q = some p →
      p ∈ catalog ∧ (lowerName p.id = lowerName q ∨ lowerName p.name = lowerName q ∨
        lowerName p.nameEn = lowerName q)) ∧
    (∀ (catalog : List Pigment) (q : String) (p : Pigment),
      catalog.find? (fun r => lowerName r.id == lowerName q) = some p →
      findPigment catalog q = some p) ∧
    (∀ (catalog : List Pigment) (q : String) (p : Pigment),
      catalog.find? (fun r => lowerName r.id == lowerName q) = none →
      catalog.find? (fun r => lowerName r.name == lowerName q) = some p →
      findPigment catalog q = some p) ∧
    (∀ (catalog : List Pigment) (q : String),
      catalog.find? (fun r => lowerName r.id == lowerName q) = none →
      catalog.find? (fun r => lowerName r.name == lowerName q) = none →
      findPigment catalog q = catalog.find? (fun r => lowerName r.nameEn == lowerName q)) ∧
    findPigment modelCatalog "indian yellow" = some indianYellow ∧
    findPigment modelCatalog "Indian Yellow" = some indianYellow ∧
    findPigment modelCatalog "nonexistent-pigment" = none := by
  refine ⟨?_, ?_, ?_, ?_, ?_, by decide, by decide, by decide⟩
  · intro catalog q1 q2 h
    simp only [findPigment, h]
  · intro catalog q p h
    unfold findPigment at h
    rcases h1 : catalog.find? (fun r => lowerName r.id == lowerName q) with _ | p1
    · rcases h2 : catalog.find? (fun r => lowerName r.name == lowerName q) with _ | p2
      · rw [h1, h2] at h
        simp only [Option.orElse] at h
        exact ⟨List.mem_of_find?_eq_some h,
          Or.inr (Or.inr (by simpa using List.find?_some h))⟩
      · rw [h1, h2] at h
        simp only [Option.orElse] at h
        cases h
        exact ⟨List.mem_of_find?_eq_some h2,
          Or.inr (Or.inl (by simpa using List.find?_some h2))⟩
    · rw [h1] at h
      simp only [Option.orElse] at h
      cases h
      exact ⟨List.mem_of_find?_eq_some h1, Or.inl (by simpa using List.find?_some h1)⟩
  · intro catalog q p h
    simp only [findPigment, h, Option.orElse]
  · intro catalog q p h1 h2
    simp only [findPigment, h1, h2, Option.orElse]
  · intro catalog q h1 h2
    simp only [findPigment, h1, h2, Option.orElse]

/-- Witness for C6: the two spellings of "Indian Yellow" agree. -/
theorem findPigment_lookup_witness :
    findPigment modelCatalog "Indian Yellow" = findPigment modelCatalog "indian yellow" :=
  findPigment_lookup.1 modelCatalog "Indian Yellow" "indian yellow" (by decide)

/-- Difference of two rationals, computed on numerators and denominators. -/
def qsub (a b : ℚ) : ℚ := mkRat (a.num * b.den - b.num * a.den) (a.den * b.den)

/-- Sum of two rationals, computed on numerators and denominators. -/
def qadd (a b : ℚ) : ℚ := mkRat (a.num * b.den + b.num * a.den) (a.den * b.den)

/-- Reduce a rational into `[0, 360)` by subtracting the right multiple of
360, computed on the numerator and denominator. -/
def q360mod (x : ℚ) : ℚ :=
  mkRat (x.num - 360 * (x.num / (360 * (x.den : ℤ))) * x.den) x.den

theorem qsub_eq (a b : ℚ) : qsub a b = a - b := by
  have ha : ((a.den : ℚ)) ≠ 0 := by positivity
  have hb : ((b.den : ℚ)) ≠ 0 := by positivity
  rw [qsub, Rat.mkRat_eq_div]
  conv_rhs => rw [← Rat.num_div_den a, ← Rat.num_div_den b]
  push_cast
  field_simp
  ring

theorem qadd_eq (a b : ℚ) : qadd a b = a + b := by
  have ha : ((a.den : ℚ)) ≠ 0 := by positivity
  have hb : ((b.den : ℚ)) ≠ 0 := by positivity
  rw [qadd, Rat.mkRat_eq_div]
  conv_rhs => rw [← Rat.num_div_den a, ← Rat.num_div_den b]
  push_cast
  field_simp

theorem q360mod_eq (x : ℚ) : q360mod x = x - 360 * ⌊x / 360⌋ := by
  have hx : ((x.den : ℚ)) ≠ 0 := by positivity
  have hfloor : ⌊x / 360⌋ = x.num / (360 * (x.den : ℤ)) := by
    have h : x / 360 = ((x.num : ℚ)) / ((360 * x.den : ℕ) : ℚ) := by
      conv_lhs => rw [← Rat.num_div_den x]
      rw [div_div]
      congr 1
      push_cast
      ring
    rw [h, Rat.floor_intCast_div_natCast]
    congr 1
  rw [q360mod, Rat.mkRat_eq_div, hfloor]
  generalize x.num / (360 * (x.den : ℤ)) = k
  conv_rhs => rw [← Rat.num_div_den x]
  push_cast
  field_simp
  ring

attribute [irreducible] qsub qadd q360mod

/-- Modelled from the spec: the hue (in degrees, `[0, 360)`) of a color's HSL
form, the only HSL component the palette generator of the missing
`watercolor-engine.js` uses (§4.4). -/
def hueOf (c : Color) : ℚ :=
  let M := max c.r (max c.g c.b)
  let m := min c.r (min c.g c.b)
  let d := M - m
  if d = 0 then 0
  else if M = c.r then q360mod (mkRat (60 * (c.g - c.b)) d.toNat)
  else if M = c.g then mkRat (60 * (c.b - c.r) + 120 * d) d.toNat
  else mkRat (60 * (c.r - c.g) + 240 * d) d.toNat

/-- Circular distance between two hue angles, wrapping at 360°. -/
def hueDist (a b : ℚ) : ℚ :=
  let d := q360mod (qsub a b)
  min d (qsub (mkRat 360 1) d)

attribute [irreducible] hueOf hueDist

/-- Modelled from the spec: nearest-hue selection of the missing
`watercolor-engine.js` palette generator — the catalog pigment whose hue
minimizes the circular distance to the target, ties broken by catalog
declaration order (first-listed wins). -/
def nearestByHue : List Pigment → ℚ → Option Pigment
  | [], _ => none
  | p :: ps, t =>
    match nearestByHue ps t with
    | none => some p
    | some q =>
      if hueDist t (hueOf q.hex) < hueDist t (hueOf p.hex) then some q else some p

/-- Modelled from the spec: the target hue offsets of each harmony type
(§4.4): complementary +180°, analogous ±30°, triadic ±120°, split +150°/+210°. -/
def harmonyOffsets (h : String) : Option (List ℚ) :=
  if h = "complementary" then some [mkRat 180 1]
  else if h = "analogous" then some [mkRat 30 1, mkRat (-30) 1]
  else if h = "triadic" then some [mkRat 120 1, mkRat (-120) 1]
  else if h = "split" then some [mkRat 150 1, mkRat 210 1]
  else none

/-- Modelled from the spec: `generatePalette(seedPigment, harmonyType)` of the
missing `watercolor-engine.js` — the seed first, then for each target hue
offset the nearest catalog pigment by circular hue distance. -/
def generatePalette (catalog : List Pigment) (seed : Pigment) (harmony : String) :
    Option (List Pigment) :=
  (harmonyOffsets harmony).map (fun offs =>
    seed :: offs.filterMap (fun o => nearestByHue catalog (qadd (hueOf seed.hex) o)))

/-- `p` is the first pigment of `catalog` attaining the minimal circular hue
distance to the target `t`. -/
def IsFirstNearest (catalog : List Pigment) (t : ℚ) (p : Pigment) : Prop :=
  ∃ pre post, catalog = pre ++ p :: post ∧
    (∀ q ∈ catalog, hueDist t (hueOf p.hex) ≤ hueDist t (hueOf q.hex)) ∧
    (∀ q ∈ pre, hueDist t (hueOf p.hex) < hueDist t (hueOf q.hex))

theorem nearestByHue_eq_none {ps : List Pigment} {t : ℚ} :
    nearestByHue ps t = none ↔ ps = [] := by
  cases ps with
  | nil => simp [nearestByHue]
  | cons p ps =>
    simp only [nearestByHue]
    cases nearestByHue ps t with
    | none => simp
    | some q =>
      have hne : (if hueDist t (hueOf q.hex) < hueDist t (hueOf p.hex)
          then some q else some p) ≠ none := by
        split <;> simp
      simp [hne]

theorem nearestByHue_spec (catalog : List Pigment) (t : ℚ) (h : catalog ≠ []) :
    ∃ p, nearestByHue catalog t = some p ∧ IsFirstNearest catalog t p := by
  induction catalog with
  | nil => exact absurd rfl h
  | cons p ps ih =>
    by_cases hps : ps = []
    · subst hps
      refine ⟨p, by simp [nearestByHue], [], [], rfl, ?_, by simp⟩
      intro q hq
      simp only [List.mem_singleton] at hq
      subst hq
      exact le_refl _
    · obtain ⟨q, hq, pre, post, hsplit, hmin, hstrict⟩ := ih hps
      by_cases hlt : hueDist t (hueOf q.hex) < hueDist t (hueOf p.hex)
      · refine ⟨q, ?_, p :: pre, post, by rw [hsplit, List.cons_append], ?_, ?_⟩
        · simp [nearestByHue, hq, hlt]
        · intro r hr
          rcases List.mem_cons.mp hr with hrp | hrtail
          · subst hrp; exact le_of_lt hlt
          · exact hmin r hrtail
        · intro r hr
          rcases List.mem_cons.mp hr with hrp | hrpre
          · subst hrp; exact hlt
          · exact hstrict r hrpre
      · refine ⟨p, ?_, [], ps, rfl, ?_, by simp⟩
        · simp [nearestByHue, hq, hlt]
        · intro r hr
          rcases List.mem_cons.mp hr with hrp | hrtail
          · subst hrp; exact le_refl _
          · exact le_trans (not_lt.mp hlt) (hmin r hrtail)

/-- Claim C7: `generatePalette` puts the seed first and then, for each target hue
offset of the harmony type (complementary +180°, analogous ±30°, triadic
±120°, split +150°/+210°), the first catalog pigment minimizing the circular
hue distance (wrapping at 360°) to `seed.hue + offset`; in particular for
`complementary` on a nonempty catalog the palette is `[seed, p]` with `p` the
first-listed nearest pigment to `seed.hue + 180°`. -/
theorem generatePalette_harmony :
    (∀ (catalog : List Pigment) (seed : Pigment), catalog ≠ [] →
      ∃ p, generatePalette catalog seed "complementary" = some [seed, p] ∧
        IsFirstNearest catalog (qadd (hueOf seed.hex) 180) p) ∧
    (∀ (catalog : List Pigment) (seed : Pigment) (harmony : String) (offs : List ℚ),
      harmonyOffsets harmony = some offs →
      generatePalette catalog seed harmony
        = some (seed :: offs.filterMap
            (fun o => nearestByHue catalog (qadd (hueOf seed.hex) o)))) ∧
    harmonyOffsets "complementary" = some [(180 : ℚ)] ∧
    harmonyOffsets "analogous" = some [(30 : ℚ), (-30 : ℚ)] ∧
    harmonyOffsets "triadic" = some [(120 : ℚ), (-120 : ℚ)] ∧
    harmonyOffsets "split" = some [(150 : ℚ), (210 : ℚ)] ∧
    (∀ (catalog : List Pigment) (t : ℚ), catalog ≠ [] →
      ∃ p, nearestByHue catalog t = some p ∧ IsFirstNearest catalog t p) ∧
    (∀ a b : ℚ, qadd a b = a + b) := by
  have h180 : (mkRat 180 1 : ℚ) = 180 := by norm_num [Rat.mkRat_eq_div]
  have hcomp : harmonyOffsets "complementary" = some [(180 : ℚ)] := by
    rw [show harmonyOffsets "complementary" = some [mkRat 180 1] from rfl, h180]
  have hana : harmonyOffsets "analogous" = some [(30 : ℚ), (-30 : ℚ)] := by
    rw [show harmonyOffsets "analogous" = some [mkRat 30 1, mkRat (-30) 1] from rfl]
    norm_num [Rat.mkRat_eq_div]
  have htri : harmonyOffsets "triadic" = some [(120 : ℚ), (-120 : ℚ)] := by
    rw [show harmonyOffsets "triadic" = some [mkRat 120 1, mkRat (-120) 1] from rfl]
    norm_num [Rat.mkRat_eq_div]
  have hspl : harmonyOffsets "split" = some [(150 : ℚ), (210 : ℚ)] := by
    rw [show harmonyOffsets "split" = some [mkRat 150 1, mkRat 210 1] from rfl]
    norm_num [Rat.mkRat_eq_div]
  refine ⟨?_, ?_, hcomp, hana, htri, hspl, nearestByHue_spec, qadd_eq⟩
  · intro catalog seed hne
    obtain ⟨p, hp, hfirst⟩ := nearestByHue_spec catalog (qadd (hueOf seed.hex) 180) hne
    refine ⟨p, ?_, hfirst⟩
    simp only [generatePalette, hcomp, Option.map_some']
    simp [List.filterMap, hp]
  · intro catalog seed harmony offs h
    simp only [generatePalette, h, Option.map_some']

/-- Witness for C7 at the model catalog and Indian Yellow seed. -/
theorem generatePalette_harmony_witness :
    ∃ p, generatePalette modelCatalog indianYellow "complementary" = some [indianYellow, p] ∧
      IsFirstNearest modelCatalog (qadd (hueOf indianYellow.hex) 180) p :=
  generatePalette_harmony.1 modelCatalog indianYellow (by decide)

/-- State of the `Atmosphere` object of `atmosphere.js` (src/unnamed/part_005):
engine presence, the glazing-pigment list captured at `init`, and the other
mutable fields of the object, which `getDailyAccent` must not depend on. -/
structure AtmosphereState where
  engine : Bool
  glazingPigments : List Pigment
  washOverlay : Bool
  washTimer : Option ℤ
  washInterval : ℤ
  initialDelay : ℤ
  resumeDelay : ℤ
  initialized : Bool

/-- The date seed of `getDailyAccent` (src/unnamed/part_005, line 128):
`year * 10000 + (month + 1) * 100 + day`, with `month` the 0-based
`Date.getMonth()`, so the middle term is the 1-based calendar month. -/
def dateSeed (year month day : ℤ) : ℤ := year * 10000 + (month + 1) * 100 + day

/-- `seededRandom` of `getDailyAccent` (src/unnamed/part_005, lines 129-132):
`x = sin(s) * 10000; x - Math.floor(x)`.  `Math.sin` is a fixed pure map,
passed in here as `sinFn`. -/
def seededRandom (sinFn : ℤ → ℚ) (s : ℤ) : ℚ :=
  sinFn s * 10000 - (⌊sinFn s * 10000⌋ : ℤ)

/-- `getDailyAccent` of `atmosphere.js` (src/unnamed/part_005, lines 124-136):
`null` without an engine, otherwise the glazing pigment at index
`Math.floor(seededRandom(seed) * length)`. -/
def getDailyAccent (sinFn : ℤ → ℚ) (year month day : ℤ) (st : AtmosphereState) :
    Option Pigment :=
  if st.engine then
    st.glazingPigments.get?
      (⌊seededRandom sinFn (dateSeed year month day) * st.glazingPigments.length⌋).toNat
  else none

/-- Claim C10: `getDailyAccent` is deterministic per calendar date — it is a pure
function of the date-derived seed and the initialized glazing-pigment list:
two states agreeing on engine presence and the pigment list give the same
pigment on the same date, two dates with equal seeds give the same pigment,
and the seed is `year*10000 + month*100 + day` (1-based calendar month). -/
theorem getDailyAccent_deterministic :
    (∀ (sinFn : ℤ → ℚ) (y m d : ℤ) (s1 s2 : AtmosphereState),
      s1.engine = s2.engine → s1.glazingPigments = s2.glazingPigments →
      getDailyAccent sinFn y m d s1 = getDailyAccent sinFn y m d s2) ∧
    (∀ (sinFn : ℤ → ℚ) (st : AtmosphereState) (y m d y' m' d' : ℤ),
      dateSeed y m d = dateSeed y' m' d' →
      getDailyAccent sinFn y m d st = getDailyAccent sinFn y' m' d' st) ∧
    (∀ y m d : ℤ, dateSeed y m d = y * 10000 + (m + 1) * 100 + d) := by
  refine ⟨?_, ?_, fun y m d => rfl⟩
  · intro sinFn y m d s1 s2 he hg
    simp [getDailyAccent, he, hg]
  · intro sinFn st y m d y' m' d' h
    simp [getDailyAccent, h]

/-- Witness for C10: two states differing in every other field agree on the
daily accent for 2026-10-12. -/
theorem getDailyAccent_deterministic_witness :
    getDailyAccent (fun _ => 0) 2026 9 12
        ⟨true, [indianYellow, ultramarine], true, some 5, 30000, 4000, 5000, true⟩
      = getDailyAccent (fun _ => 0) 2026 9 12
        ⟨true, [indianYellow, ultramarine], false, none, 25000, 1000, 2000, false⟩ :=
  getDailyAccent_deterministic.1 (fun _ => 0) 2026 9 12 _ _ rfl rfl

theorem round_mono {x y : ℚ} (h : x ≤ y) : round x ≤ round y := by
  rw [round_eq, round_eq]
  exact Int.floor_mono (by linarith)

/-- The integer offset of step `i` of a 5-step gradient along a channel whose
endpoints differ by `d`. -/
def stepChan (d : ℤ) (i : ℕ) : ℤ := round ((d : ℚ) * i / 4)

theorem stepChan_zero (d : ℤ) : stepChan d 0 = 0 := by
  simp [stepChan]

theorem stepChan_four (d : ℤ) : stepChan d 4 = d := by
  have h : (d : ℚ) * (4 : ℕ) / 4 = (d : ℚ) := by push_cast; ring
  rw [stepChan, h, round_intCast]

theorem stepChan_mono_of_nonneg {d : ℤ} (hd : 0 ≤ d) {i j : ℕ} (hij : i ≤ j) :
    stepChan d i ≤ stepChan d j := by
  apply round_mono
  have hd0 : (0 : ℚ) ≤ (d : ℚ) := by exact_mod_cast hd
  have hij0 : (i : ℚ) ≤ (j : ℚ) := by exact_mod_cast hij
  have := mul_le_mul_of_nonneg_left hij0 hd0
  linarith

theorem stepChan_anti_of_nonpos {d : ℤ} (hd : d ≤ 0) {i j : ℕ} (hij : i ≤ j) :
    stepChan d j ≤ stepChan d i := by
  apply round_mono
  have hd0 : (d : ℚ) ≤ 0 := by exact_mod_cast hd
  have hij0 : (i : ℚ) ≤ (j : ℚ) := by exact_mod_cast hij
  have := mul_le_mul_of_nonpos_left hij0 hd0
  linarith

theorem stepChan_nonneg {d : ℤ} (hd : 0 ≤ d) (i : ℕ) : 0 ≤ stepChan d i := by
  have := stepChan_mono_of_nonneg hd (Nat.zero_le i)
  rwa [stepChan_zero] at this

theorem stepChan_nonpos {d : ℤ} (hd : d ≤ 0) (i : ℕ) : stepChan d i ≤ 0 := by
  have := stepChan_anti_of_nonpos hd (Nat.zero_le i)
  rwa [stepChan_zero] at this

theorem stepChan_le_self {d : ℤ} (hd : 0 ≤ d) {i : ℕ} (hi : i ≤ 4) : stepChan d i ≤ d := by
  have := stepChan_mono_of_nonneg hd hi
  rwa [stepChan_four] at this

theorem self_le_stepChan {d : ℤ} (hd : d ≤ 0) {i : ℕ} (hi : i ≤ 4) : d ≤ stepChan d i := by
  have := stepChan_anti_of_nonpos hd hi
  rwa [stepChan_four] at this

theorem stepChan_succ_of_big {d : ℤ} (hd : 4 ≤ d) (i : ℕ) :
    stepChan d i + 1 ≤ stepChan d (i + 1) := by
  have hd4 : (4 : ℚ) ≤ (d : ℚ) := by exact_mod_cast hd
  have h : (d : ℚ) * i / 4 + 1 ≤ (d : ℚ) * (i + 1 : ℕ) / 4 := by
    push_cast
    have : (d : ℚ) * (i + 1) / 4 = (d : ℚ) * i / 4 + (d : ℚ) / 4 := by ring
    rw [this]
    linarith
  calc stepChan d i + 1 = round ((d : ℚ) * i / 4 + 1) := (round_add_one _).symm
    _ ≤ round ((d : ℚ) * (i + 1 : ℕ) / 4) := round_mono h

theorem stepChan_succ_of_neg {d : ℤ} (hd : d ≤ -4) (i : ℕ) :
    stepChan d (i + 1) ≤ stepChan d i - 1 := by
  have hd4 : (d : ℚ) ≤ -4 := by exact_mod_cast hd
  have h : (d : ℚ) * (i + 1 : ℕ) / 4 ≤ (d : ℚ) * i / 4 - 1 := by
    push_cast
    have : (d : ℚ) * (i + 1) / 4 = (d : ℚ) * i / 4 + (d : ℚ) / 4 := by ring
    rw [this]
    linarith
  calc stepChan d (i + 1) ≤ round ((d : ℚ) * i / 4 - 1) := round_mono h
    _ = stepChan d i - 1 := by rw [round_sub_one]; rfl

/-- The remaining distance of step `i` to the far endpoint, along a channel
whose endpoints differ by `d`. -/
def resid (d : ℤ) (i : ℕ) : ℤ := |d - stepChan d i|

theorem resid_nonneg (d : ℤ) (i : ℕ) : 0 ≤ resid d i := abs_nonneg _

theorem resid_of_nonneg {d : ℤ} (hd : 0 ≤ d) {i : ℕ} (hi : i ≤ 4) :
    resid d i = d - stepChan d i :=
  abs_of_nonneg (by have := stepChan_le_self hd hi; omega)

theorem resid_of_nonpos {d : ℤ} (hd : d ≤ 0) {i : ℕ} (hi : i ≤ 4) :
    resid d i = stepChan d i - d := by
  rw [resid, abs_sub_comm]
  exact abs_of_nonneg (by have := self_le_stepChan hd hi; omega)

theorem resid_anti (d : ℤ) {i : ℕ} (hi : i + 1 ≤ 4) : resid d (i + 1) ≤ resid d i := by
  rcases le_or_lt 0 d with hd | hd
  · rw [resid_of_nonneg hd hi, resid_of_nonneg hd (by omega)]
    have := stepChan_mono_of_nonneg hd (show i ≤ i + 1 by omega)
    omega
  · rw [resid_of_nonpos (le_of_lt hd) hi, resid_of_nonpos (le_of_lt hd) (by omega)]
    have := stepChan_anti_of_nonpos (le_of_lt hd) (show i ≤ i + 1 by omega)
    omega

theorem resid_strict {d : ℤ} (hd : 4 ≤ |d|) {i : ℕ} (hi : i + 1 ≤ 4) :
    resid d (i + 1) < resid d i := by
  rcases le_or_lt 0 d with hpos | hneg
  · have hd4 : 4 ≤ d := by rwa [abs_of_nonneg hpos] at hd
    rw [resid_of_nonneg hpos hi, resid_of_nonneg hpos (by omega)]
    have := stepChan_succ_of_big hd4 i
    omega
  · have hd4 : d ≤ -4 := by
      rw [abs_of_neg hneg] at hd
      omega
    rw [resid_of_nonpos (le_of_lt hneg) hi, resid_of_nonpos (le_of_lt hneg) (by omega)]
    have := stepChan_succ_of_neg hd4 i
    omega

theorem lerpChan_quarter (a f : ℤ) (i : ℕ) (hi : i ≤ 4) :
    lerpChan a f (mkRat i 4) = a + stepChan (f - a) i := by
  have hi4 : (i : ℚ) ≤ 4 := by exact_mod_cast hi
  have ht : clamp01 (mkRat i 4) = (i : ℚ) / 4 := by
    have hmk : (mkRat i 4 : ℚ) = (i : ℚ) / 4 := by
      rw [Rat.mkRat_eq_div]
      push_cast
      ring
    have h0 : (0 : ℚ) ≤ (i : ℚ) / 4 := by positivity
    have h1 : (i : ℚ) / 4 ≤ 1 := by linarith
    rw [clamp01, hmk, min_eq_right h1, max_eq_right h0]
  rw [lerpChan_eq, ht]
  have hsum : (a : ℚ) + ((f : ℚ) - (a : ℚ)) * ((i : ℚ) / 4)
      = (a : ℚ) + ((f - a : ℤ) : ℚ) * (i : ℚ) / 4 := by
    push_cast
    ring
  rw [hsum, round_int_add]
  rfl

theorem lerpChan_quarter_int (a f n : ℤ) (i : ℕ) (hn : n = i) (hi : i ≤ 4) :
    lerpChan a f (mkRat n 4) = a + stepChan (f - a) i := by
  subst hn
  exact lerpChan_quarter a f i hi

theorem lerpChan_sub_sq (a f n : ℤ) (i : ℕ) (hn : n = i) (hi : i ≤ 4) :
    (lerpChan a f (mkRat n 4) - f) ^ 2 = resid (f - a) i ^ 2 := by
  rw [lerpChan_quarter_int a f n i hn hi, resid, sq_abs,
    show a + stepChan (f - a) i - f = -(f - a - stepChan (f - a) i) from by ring, neg_sq]

theorem dist2_lerp_quarter (full : Color) (n : ℤ) (i : ℕ) (hn : n = i) (hi : i ≤ 4) :
    dist2 (lerp paperWhite full (mkRat n 4)) full
      = resid (full.r - paperWhite.r) i ^ 2 + resid (full.g - paperWhite.g) i ^ 2
        + resid (full.b - paperWhite.b) i ^ 2 := by
  show (lerpChan paperWhite.r full.r (mkRat n 4) - full.r) ^ 2
      + (lerpChan paperWhite.g full.g (mkRat n 4) - full.g) ^ 2
      + (lerpChan paperWhite.b full.b (mkRat n 4) - full.b) ^ 2 = _
  rw [lerpChan_sub_sq _ _ n i hn hi, lerpChan_sub_sq _ _ n i hn hi,
    lerpChan_sub_sq _ _ n i hn hi]

theorem dist2_step_lt (full : Color) (n m : ℤ) (i : ℕ) (hn : n = i) (hm : m = i + 1)
    (hi : i + 1 ≤ 4)
    (hgap : 4 ≤ |full.r - paperWhite.r| ∨ 4 ≤ |full.g - paperWhite.g| ∨
      4 ≤ |full.b - paperWhite.b|) :
    dist2 (lerp paperWhite full (mkRat m 4)) full
      < dist2 (lerp paperWhite full (mkRat n 4)) full := by
  rw [dist2_lerp_quarter full m (i + 1) (by omega) hi,
    dist2_lerp_quarter full n i hn (by omega)]
  have sq_le : ∀ d : ℤ, resid d (i + 1) ^ 2 ≤ resid d i ^ 2 := fun d =>
    pow_le_pow_left₀ (resid_nonneg d (i + 1)) (resid_anti d hi) 2
  have sq_lt : ∀ d : ℤ, 4 ≤ |d| → resid d (i + 1) ^ 2 < resid d i ^ 2 := by
    intro d hd
    have h1 := resid_strict hd hi
    have h2 := resid_nonneg d (i + 1)
    nlinarith
  rcases hgap with h | h | h
  · have := sq_lt _ h
    have hg := sq_le (full.g - paperWhite.g)
    have hb := sq_le (full.b - paperWhite.b)
    linarith
  · have := sq_lt _ h
    have hr := sq_le (full.r - paperWhite.r)
    have hb := sq_le (full.b - paperWhite.b)
    linarith
  · have := sq_lt _ h
    have hr := sq_le (full.r - paperWhite.r)
    have hg := sq_le (full.g - paperWhite.g)
    linarith

theorem lerp_quarter_zero (full : Color) : lerp paperWhite full (mkRat 0 4) = paperWhite := by
  show Color.mk _ _ _ = _
  rw [lerpChan_quarter_int _ _ 0 0 (by omega) (by omega),
    lerpChan_quarter_int _ _ 0 0 (by omega) (by omega),
    lerpChan_quarter_int _ _ 0 0 (by omega) (by omega),
    stepChan_zero, stepChan_zero, stepChan_zero]
  rfl

theorem lerp_quarter_four (full : Color) : lerp paperWhite full (mkRat 4 4) = full := by
  show Color.mk _ _ _ = _
  rw [lerpChan_quarter_int _ _ 4 4 (by omega) (by omega),
    lerpChan_quarter_int _ _ 4 4 (by omega) (by omega),
    lerpChan_quarter_int _ _ 4 4 (by omega) (by omega),
    stepChan_four, stepChan_four, stepChan_four]
  show Color.mk (paperWhite.r + (full.r - paperWhite.r)) (paperWhite.g + (full.g - paperWhite.g))
    (paperWhite.b + (full.b - paperWhite.b)) = full
  have h : ∀ a f : ℤ, a + (f - a) = f := fun a f => by omega
  rw [h, h, h]

/-- Claim C5, amended: for every pigment with a recognized transparency level whose
fully glazed color differs from paper white by at least 4 (= steps − 1) in some
channel, `getDilutionGradient(p, 5)` returns exactly 5 colors, evenly spaced in
RGB space from paper white (step 0) to `glaze(paperWhite, p)` (final step),
whose channel-wise Euclidean distance to the fully glazed color is strictly
decreasing across the sequence. -/
theorem getDilutionGradient_five_monotone :
    ∀ (p : Pigment) (full : Color), glaze paperWhite p = some full →
      (4 ≤ |full.r - paperWhite.r| ∨ 4 ≤ |full.g - paperWhite.g| ∨
        4 ≤ |full.b - paperWhite.b|) →
      ∃ cs : List Color, getDilutionGradient p 5 = some cs ∧ cs.length = 5 ∧
        cs = [lerp paperWhite full (mkRat 0 4), lerp paperWhite full (mkRat 1 4),
          lerp paperWhite full (mkRat 2 4), lerp paperWhite full (mkRat 3 4),
          lerp paperWhite full (mkRat 4 4)] ∧
        cs.head? = some paperWhite ∧ cs.getLast? = some full ∧ strictlyCloser full cs := by
  intro p full hglaze hgap
  refine ⟨[lerp paperWhite full (mkRat 0 4), lerp paperWhite full (mkRat 1 4),
      lerp paperWhite full (mkRat 2 4), lerp paperWhite full (mkRat 3 4),
      lerp paperWhite full (mkRat 4 4)],
    ?_, rfl, rfl, ?_, ?_, ?_⟩
  · rw [getDilutionGradient, if_neg (by omega), hglaze, Option.map_some']
    rw [if_neg (by omega : ¬ (5 : ℤ) = 1)]
    rfl
  · show some (lerp paperWhite full (mkRat 0 4)) = some paperWhite
    rw [lerp_quarter_zero]
  · show some (lerp paperWhite full (mkRat 4 4)) = some full
    rw [lerp_quarter_four]
  · refine List.chain'_cons.mpr ⟨?_, List.chain'_cons.mpr ⟨?_, List.chain'_cons.mpr
      ⟨?_, List.chain'_cons.mpr ⟨?_, List.chain'_singleton _⟩⟩⟩⟩
    · exact dist2_step_lt full 0 1 0 (by omega) (by omega) (by omega) hgap
    · exact dist2_step_lt full 1 2 1 (by omega) (by omega) (by omega) hgap
    · exact dist2_step_lt full 2 3 2 (by omega) (by omega) (by omega) hgap
    · exact dist2_step_lt full 3 4 3 (by omega) (by omega) (by omega) hgap

/-- Witness for C5 (amended) at Indian Yellow: its glaze (249, 232, 153) is
well separated from paper white. -/
theorem getDilutionGradient_five_monotone_witness :
    ∃ cs : List Color, getDilutionGradient indianYellow 5 = some cs ∧ cs.length = 5 ∧
      cs = [lerp paperWhite ⟨249, 232, 153⟩ (mkRat 0 4), lerp paperWhite ⟨249, 232, 153⟩ (mkRat 1 4),
        lerp paperWhite ⟨249, 232, 153⟩ (mkRat 2 4), lerp paperWhite ⟨249, 232, 153⟩ (mkRat 3 4),
        lerp paperWhite ⟨249, 232, 153⟩ (mkRat 4 4)] ∧
      cs.head? = some paperWhite ∧ cs.getLast? = some ⟨249, 232, 153⟩ ∧
      strictlyCloser ⟨249, 232, 153⟩ cs :=
  getDilutionGradient_five_monotone indianYellow ⟨249, 232, 153⟩ (by decide) (by decide)

/-- A pigment whose fully glazed color sits within one unit of paper white in
every channel; the rounding of the 5-step gradient then repeats colors. -/
def nearWhitePigment : Pigment :=
  ⟨"0", "X", "X", ⟨254, 250, 245⟩, "transparent", "none", []⟩

/-- Counterexample to C5 as stated: for the valid pigment `nearWhitePigment`
(recognized transparency `transparent`), the 5-step gradient repeats colors, so
the distances to the fully glazed color are not strictly decreasing. -/
theorem getDilutionGradient_five_not_strict :
    glaze paperWhite nearWhitePigment = some ⟨253, 250, 245⟩ ∧
    getDilutionGradient nearWhitePigment 5
      = some [⟨252, 250, 245⟩, ⟨252, 250, 245⟩, ⟨253, 250, 245⟩, ⟨253, 250, 245⟩,
        ⟨253, 250, 245⟩] ∧
    ¬ strictlyCloser ⟨253, 250, 245⟩
      [⟨252, 250, 245⟩, ⟨252, 250, 245⟩, ⟨253, 250, 245⟩, ⟨253, 250, 245⟩,
        ⟨253, 250, 245⟩] := by
  refine ⟨by decide, by decide, fun h => absurd (List.chain'_cons.mp h).1 (by decide)⟩

end Watercolor
